import Mathlib

/-!
Shallow embedding of the Thompson-sampling bandit scheduler
(`src/thompson.rs`, `src/bandits.rs`) and proofs about its selection,
ranking, scoring and configuration-handling behaviour.

Modelling conventions:
* `NotNan<f64>` values (scores, runtimes, biases, random draws) are embedded
  as exact rationals `ℚ`; `f64::MAX` becomes the explicit rational constant
  `f64_MAX = (2^53 - 1) * 2^971`, the exact value of the largest finite `f64`.
* `u64` counters are embedded as `ℕ`.
* The external quantile routine `puruspe::invbetai` and the thread-local
  random generator are external collaborators: every function that, in Rust,
  draws a random float and feeds it to `invbetai` here receives the sampler
  `invb : ℚ → ℚ → ℚ → ℚ` and the per-arm draws explicitly, so the embedded
  functions are deterministic in all their inputs, exactly as the spec's
  "injected random source" model prescribes.
* A Rust `panic!` is embedded as `Except.error`.
-/

/-- Exact value of the largest finite `f64`, the model of `f64::MAX`. -/
def f64_MAX : ℚ := (2 ^ 53 - 1) * 2 ^ 971

/-- Embedding of `struct ThompsonInfo` from `src/thompson.rs`. -/
structure ThompsonInfo where
  interesting : ℕ
  uninteresting : ℕ
deriving DecidableEq, Repr

/-- Embedding of `skew_percentile` from `src/thompson.rs`: with a known
runtime the score is `sampled_point * (100 / runtime) * user_bias`; with an
unknown runtime it is the maximal finite score `f64_MAX`. -/
def skew_percentile (sampled_point : ℚ) (runtime : Option ℚ) (user_bias : ℚ) : ℚ :=
  match runtime with
  | some runtime =>
      let time_scaler : ℚ := 100 / runtime
      sampled_point * time_scaler * user_bias
  | none => f64_MAX

/-- Embedding of `thompson_step` from `src/thompson.rs`: the raw posterior
sample `invbetai(u, interesting + 1, uninteresting + 1)`.  The random draw
`random_float` and the quantile routine `invb` are passed explicitly. -/
def thompson_step (invb : ℚ → ℚ → ℚ → ℚ) (interesting uninteresting : ℕ)
    (random_float : ℚ) : ℚ :=
  invb random_float ((interesting : ℚ) + 1) ((uninteresting : ℚ) + 1)

/-- Embedding of `thompson_step_bias_runtime` from `src/thompson.rs`:
the raw posterior sample pushed through `skew_percentile`. -/
def thompson_step_bias_runtime (invb : ℚ → ℚ → ℚ → ℚ)
    (interesting uninteresting : ℕ) (runtime : Option ℚ) (user_bias : ℚ)
    (random_float : ℚ) : ℚ :=
  skew_percentile
    (invb random_float ((interesting : ℚ) + 1) ((uninteresting : ℚ) + 1))
    runtime user_bias

/-- The selection loop of `thompson_sampling_bias_runtime`: walk the entries
carrying the current index, the selected index and the best score so far
(initially `none` and `-1`), replacing them whenever the current score is
strictly greater. -/
def tsbrLoop (invb : ℚ → ℚ → ℚ → ℚ) (runtimes : List (Option ℚ))
    (user_biases : List ℚ) (draws : List ℚ) :
    ℕ → Option ℕ → ℚ → List ThompsonInfo → Option ℕ
  | _, sel, _, [] => sel
  | index, sel, best, entry :: rest =>
      let skewed_percentile :=
        thompson_step_bias_runtime invb entry.interesting entry.uninteresting
          (runtimes.getD index none) (user_biases.getD index 0)
          (draws.getD index 0)
      if best < skewed_percentile then
        tsbrLoop invb runtimes user_biases draws (index + 1) (some index)
          skewed_percentile rest
      else
        tsbrLoop invb runtimes user_biases draws (index + 1) sel best rest

/-- Embedding of `thompson_sampling_bias_runtime` from `src/thompson.rs`. -/
def thompson_sampling_bias_runtime (invb : ℚ → ℚ → ℚ → ℚ)
    (entries : List ThompsonInfo) (runtimes : List (Option ℚ))
    (user_biases : List ℚ) (draws : List ℚ) : Option ℕ :=
  tsbrLoop invb runtimes user_biases draws 0 none (-1) entries

/-- The selection loop of `thompson_sampling` (the runtime-ignorant form):
the per-arm score is the raw posterior sample times the user bias. -/
def tsLoop (invb : ℚ → ℚ → ℚ → ℚ) (user_biases : List ℚ) (draws : List ℚ) :
    ℕ → Option ℕ → ℚ → List ThompsonInfo → Option ℕ
  | _, sel, _, [] => sel
  | index, sel, best, entry :: rest =>
      let percentile :=
        thompson_step invb entry.interesting entry.uninteresting
          (draws.getD index 0) * user_biases.getD index 0
      if best < percentile then
        tsLoop invb user_biases draws (index + 1) (some index) percentile rest
      else
        tsLoop invb user_biases draws (index + 1) sel best rest

/-- Embedding of `thompson_sampling` from `src/thompson.rs` (ignores runtime). -/
def thompson_sampling (invb : ℚ → ℚ → ℚ → ℚ) (entries : List ThompsonInfo)
    (user_biases : List ℚ) (draws : List ℚ) : Option ℕ :=
  tsLoop invb user_biases draws 0 none (-1) entries

/-- Embedding of `thompson_ranking_bias_runtime` from `src/thompson.rs`:
pair each index with its skewed score, sort ascending by score with the
stable sort (`sort_by_key`), reverse, and keep the indices. -/
def thompson_ranking_bias_runtime (invb : ℚ → ℚ → ℚ → ℚ)
    (entries : List ThompsonInfo) (runtimes : List (Option ℚ))
    (user_biases : List ℚ) (draws : List ℚ) : List ℕ :=
  let percentiles_index_mapping :=
    entries.enum.map fun p =>
      (p.1,
        thompson_step_bias_runtime invb p.2.interesting p.2.uninteresting
          (runtimes.getD p.1 none) (user_biases.getD p.1 0) (draws.getD p.1 0))
  (((percentiles_index_mapping.mergeSort
      fun x y => decide (x.2 ≤ y.2)).reverse).map fun p => p.1)

/-- Embedding of `thompson_ranking` from `src/thompson.rs`: identical shape,
but the key sorted on is the raw posterior sample alone — this form takes no
user biases at all. -/
def thompson_ranking (invb : ℚ → ℚ → ℚ → ℚ) (entries : List ThompsonInfo)
    (draws : List ℚ) : List ℕ :=
  let percentiles_index_mapping :=
    entries.enum.map fun p =>
      (p.1,
        thompson_step invb p.2.interesting p.2.uninteresting (draws.getD p.1 0))
  (((percentiles_index_mapping.mergeSort
      fun x y => decide (x.2 ≤ y.2)).reverse).map fun p => p.1)

/-- Script record as used throughout `src/bandits.rs` (its declaration lives
in the crate's `config.rs`, not present under `src/`; the fields are exactly
those read and written by `src/bandits.rs`). -/
structure Script where
  name : String
  command : String
  results : ThompsonInfo
  runcount : ℕ
  avgruntime_ms : Option ℚ
  bias : ℚ
  limit : Option ℕ
deriving DecidableEq, Repr

/-- Configuration record as used by `src/bandits.rs`: the list of scripts. -/
structure Config where
  scripts : List Script
deriving DecidableEq, Repr

/-- The limit filter of `choose_script` in `src/bandits.rs`:
`x.limit.is_none() || x.limit.unwrap() < x.results.interesting`. -/
def keepScript (s : Script) : Bool :=
  s.limit.isNone || decide (s.limit.getD 0 < s.results.interesting)

/-- Embedding of `choose_script` from `src/bandits.rs`.  The entries and the
runtimes are taken from the scripts that pass the limit filter, while the
user biases are taken from ALL scripts, unfiltered — exactly as the source
does.  The Rust `.unwrap()` is left as the underlying `Option`. -/
def choose_script (invb : ℚ → ℚ → ℚ → ℚ) (config : Config)
    (ignore_runtime : Bool) (draws : List ℚ) : Option ℕ :=
  let kept := config.scripts.filter keepScript
  let entries := kept.map Script.results
  let runtimes := kept.map Script.avgruntime_ms
  let user_biases := config.scripts.map Script.bias
  if ignore_runtime then
    thompson_sampling invb entries user_biases draws
  else
    thompson_sampling_bias_runtime invb entries runtimes user_biases draws

/-- Resetting a single script record, as in the closures of `reset_state`. -/
def resetScript (s : Script) : Script :=
  { s with
    runcount := 0
    results := { interesting := 0, uninteresting := 0 }
    avgruntime_ms := none }

/-- Embedding of `reset_state` from `src/bandits.rs`.  Note the source's
condition: it panics when `any` script bears the requested name (the panic
message claims the opposite), and otherwise maps a reset over the scripts
whose name equals the requested one.  `panic!` is embedded as
`Except.error` carrying the message. -/
def reset_state (config : Config) (script_name : Option String) :
    Except String Config :=
  match script_name with
  | some script_name =>
      if config.scripts.any fun script => script.name = script_name then
        Except.error
          ("Could not find specified script " ++ script_name ++ " to reset")
      else
        Except.ok
          { scripts :=
              config.scripts.map fun script =>
                if script.name = script_name then resetScript script
                else script }
  | none =>
      Except.ok { scripts := config.scripts.map resetScript }

/-- Error taxonomy of the spec's IncompleteBetaEngine. -/
inductive BetaError where
  | invalidDomain
  | nonconvergence
deriving DecidableEq, Repr

/-- Modelled from the spec: the inverse regularized incomplete beta function
is delegated by the source to the external `puruspe` crate, whose code is not
under `src/`; the spec requires the routine to validate its arguments at
entry — `InvalidDomain` when `a ≤ 0`, `b ≤ 0` or `p ∉ [0,1]` — before
running the Newton/bisection refinement, which is abstracted here as the
injected total function `refine`. -/
def inverseRegularizedIncompleteBeta (refine : ℚ → ℚ → ℚ → ℚ)
    (p a b : ℚ) : Except BetaError ℚ :=
  if a ≤ 0 ∨ b ≤ 0 ∨ p < 0 ∨ 1 < p then Except.error BetaError.invalidDomain
  else Except.ok (refine p a b)

/-- Embedding of `dist_area_at_percentile` from `src/thompson.rs`, routed
through the spec-modelled checked engine: the quantile of
`Beta(interesting + 1, uninteresting + 1)` at `area`. -/
def dist_area_at_percentile (refine : ℚ → ℚ → ℚ → ℚ) (entry : ThompsonInfo)
    (area : ℚ) : Except BetaError ℚ :=
  inverseRegularizedIncompleteBeta refine area
    ((entry.interesting : ℚ) + 1) ((entry.uninteresting : ℚ) + 1)

/-! ### Generic score-list selector and ranker (the spec's Selector shape)

The spec describes `selectBest` and `rank` as: compute one score per arm,
then take the index of the strict maximum (ties to the earliest arm), resp.
sort the indices by score.  The following definitions realize that shape
over an explicit list of per-arm scores; the refinement lemmas below show
each source function equal to this shape applied to the appropriate score
list, which isolates exactly which scoring transform each form uses. -/

/-- Maximum-selection loop over a plain score list: same shape as the source
loops, index of the strict maximum, ties to the earliest. -/
def selLoop : ℕ → Option ℕ → ℚ → List ℚ → Option ℕ
  | _, sel, _, [] => sel
  | index, sel, best, s :: rest =>
      if best < s then selLoop (index + 1) (some index) s rest
      else selLoop (index + 1) sel best rest

/-- Index of the strict maximum of a score list (ties to the earliest),
starting from the sentinel best score `-1`. -/
def select_by_score (scores : List ℚ) : Option ℕ :=
  selLoop 0 none (-1) scores

/-- Ranking of a score list: stable ascending sort of the indexed scores,
reversed, indices kept. -/
def rank_by_score (scores : List ℚ) : List ℕ :=
  (((scores.enum.mergeSort fun x y => decide (x.2 ≤ y.2)).reverse).map
    fun p => p.1)

/-- Per-arm skewed scores used by the runtime-aware forms. -/
def skewed_scores (invb : ℚ → ℚ → ℚ → ℚ) (entries : List ThompsonInfo)
    (runtimes : List (Option ℚ)) (user_biases : List ℚ) (draws : List ℚ) :
    List ℚ :=
  entries.enum.map fun p =>
    thompson_step_bias_runtime invb p.2.interesting p.2.uninteresting
      (runtimes.getD p.1 none) (user_biases.getD p.1 0) (draws.getD p.1 0)

/-- Per-arm plain scores, raw posterior sample times user bias. -/
def plain_scores (invb : ℚ → ℚ → ℚ → ℚ) (entries : List ThompsonInfo)
    (user_biases : List ℚ) (draws : List ℚ) : List ℚ :=
  entries.enum.map fun p =>
    thompson_step invb p.2.interesting p.2.uninteresting (draws.getD p.1 0) *
      user_biases.getD p.1 0

/-- Per-arm raw posterior samples, with no bias or runtime applied. -/
def raw_scores (invb : ℚ → ℚ → ℚ → ℚ) (entries : List ThompsonInfo)
    (draws : List ℚ) : List ℚ :=
  entries.enum.map fun p =>
    thompson_step invb p.2.interesting p.2.uninteresting (draws.getD p.1 0)

lemma tsbrLoop_eq_selLoop (invb : ℚ → ℚ → ℚ → ℚ) (runtimes : List (Option ℚ))
    (user_biases : List ℚ) (draws : List ℚ) :
    ∀ (entries : List ThompsonInfo) (index : ℕ) (sel : Option ℕ) (best : ℚ),
      tsbrLoop invb runtimes user_biases draws index sel best entries =
        selLoop index sel best
          ((entries.enumFrom index).map fun p =>
            thompson_step_bias_runtime invb p.2.interesting p.2.uninteresting
              (runtimes.getD p.1 none) (user_biases.getD p.1 0)
              (draws.getD p.1 0))
  | [], _, _, _ => rfl
  | entry :: rest, index, sel, best => by
      simp only [tsbrLoop, List.enumFrom_cons, List.map_cons, selLoop]
      split <;>
        exact tsbrLoop_eq_selLoop invb runtimes user_biases draws rest
          (index + 1) _ _

lemma tsLoop_eq_selLoop (invb : ℚ → ℚ → ℚ → ℚ) (user_biases : List ℚ)
    (draws : List ℚ) :
    ∀ (entries : List ThompsonInfo) (index : ℕ) (sel : Option ℕ) (best : ℚ),
      tsLoop invb user_biases draws index sel best entries =
        selLoop index sel best
          ((entries.enumFrom index).map fun p =>
            thompson_step invb p.2.interesting p.2.uninteresting
              (draws.getD p.1 0) * user_biases.getD p.1 0)
  | [], _, _, _ => rfl
  | entry :: rest, index, sel, best => by
      simp only [tsLoop, List.enumFrom_cons, List.map_cons, selLoop]
      split <;>
        exact tsLoop_eq_selLoop invb user_biases draws rest (index + 1) _ _

lemma thompson_sampling_bias_runtime_eq (invb : ℚ → ℚ → ℚ → ℚ)
    (entries : List ThompsonInfo) (runtimes : List (Option ℚ))
    (user_biases : List ℚ) (draws : List ℚ) :
    thompson_sampling_bias_runtime invb entries runtimes user_biases draws =
      select_by_score (skewed_scores invb entries runtimes user_biases draws) := by
  simpa [thompson_sampling_bias_runtime, select_by_score, skewed_scores,
    List.enum] using
    tsbrLoop_eq_selLoop invb runtimes user_biases draws entries 0 none (-1)

lemma thompson_sampling_eq (invb : ℚ → ℚ → ℚ → ℚ)
    (entries : List ThompsonInfo) (user_biases : List ℚ) (draws : List ℚ) :
    thompson_sampling invb entries user_biases draws =
      select_by_score (plain_scores invb entries user_biases draws) := by
  simpa [thompson_sampling, select_by_score, plain_scores, List.enum] using
    tsLoop_eq_selLoop invb user_biases draws entries 0 none (-1)

lemma enumFrom_enumFrom (l : List α) :
    ∀ n : ℕ, (l.enumFrom n).enumFrom n = (l.enumFrom n).map fun p => (p.1, p) := by
  induction l with
  | nil => intro n; rfl
  | cons a t ih =>
      intro n
      simp only [List.enumFrom_cons, List.map_cons]
      exact congrArg _ (ih (n + 1))

lemma enum_enum (l : List α) :
    l.enum.enum = l.enum.map fun p => (p.1, p) :=
  enumFrom_enumFrom l 0

lemma enum_map_enum (l : List α) (f : ℕ × α → β) :
    (l.enum.map f).enum = l.enum.map fun p => (p.1, f p) := by
  rw [List.enum_map, enum_enum, List.map_map]
  rfl

lemma thompson_ranking_eq (invb : ℚ → ℚ → ℚ → ℚ)
    (entries : List ThompsonInfo) (draws : List ℚ) :
    thompson_ranking invb entries draws =
      rank_by_score (raw_scores invb entries draws) := by
  simp only [thompson_ranking, rank_by_score, raw_scores, enum_map_enum]

lemma thompson_ranking_bias_runtime_eq (invb : ℚ → ℚ → ℚ → ℚ)
    (entries : List ThompsonInfo) (runtimes : List (Option ℚ))
    (user_biases : List ℚ) (draws : List ℚ) :
    thompson_ranking_bias_runtime invb entries runtimes user_biases draws =
      rank_by_score (skewed_scores invb entries runtimes user_biases draws) := by
  simp only [thompson_ranking_bias_runtime, rank_by_score, skewed_scores,
    enum_map_enum]

/-- C1: for two arms with identical `ArmStatistics`, equal user bias,
runtimes `some 1.0` and `some 100.0`, and the identical injected uniform
draw used for both arms, the runtime-aware selection deterministically
returns index 0, the arm with runtime `1.0`.  The hypotheses record that
the quantile routine returns a non-negative sample at this draw (every
quantile lies in `[0,1]`) and that the common user bias is a valid,
non-negative bias. -/
theorem claim_C1_fast_arm_selected (invb : ℚ → ℚ → ℚ → ℚ)
    (stats : ThompsonInfo) (b u : ℚ)
    (hp : 0 ≤ invb u ((stats.interesting : ℚ) + 1) ((stats.uninteresting : ℚ) + 1))
    (hb : 0 ≤ b) :
    thompson_sampling_bias_runtime invb [stats, stats]
      [some 1, some 100] [b, b] [u, u] = some 0 := by
  set p := invb u ((stats.interesting : ℚ) + 1) ((stats.uninteresting : ℚ) + 1)
    with hpdef
  have h0 : (-1 : ℚ) < p * (100 / 1) * b := by
    have : (0 : ℚ) ≤ p * (100 / 1) * b := by positivity
    linarith
  have h1 : ¬ (p * (100 / 1) * b < p * (100 / 100) * b) := by
    have : p * (100 / 100) * b ≤ p * (100 / 1) * b := by nlinarith
    exact not_lt.mpr this
  simp only [thompson_sampling_bias_runtime, tsbrLoop,
    thompson_step_bias_runtime, skew_percentile, List.getD_cons_zero,
    List.getD_cons_succ, ← hpdef]
  rw [if_pos h0, if_neg h1]

/-- Closed witness for C1 at a concrete input: identical arms with 100
interesting and 100 uninteresting outcomes, the identity quantile routine,
bias 1 and common draw 1/2. -/
theorem claim_C1_fast_arm_selected_witness :
    (0 : ℚ) ≤ (1 : ℚ) / 2 ∧
      thompson_sampling_bias_runtime (fun u _ _ => u)
        [⟨100, 100⟩, ⟨100, 100⟩] [some 1, some 100] [1, 1]
        [1 / 2, 1 / 2] = some 0 :=
  ⟨by norm_num,
    claim_C1_fast_arm_selected (fun u _ _ => u) ⟨100, 100⟩ 1 (1 / 2)
      (by norm_num) (by norm_num)⟩

/-- C6: on the empty collection of arms both selection forms return `none`
("no selection"), deterministically, for every sampler, bias list, runtime
list and draw list; the embedded functions are total, so no abort is
possible. -/
theorem claim_C6_empty_returns_none (invb : ℚ → ℚ → ℚ → ℚ)
    (runtimes : List (Option ℚ)) (user_biases : List ℚ) (draws : List ℚ) :
    thompson_sampling invb [] user_biases draws = none ∧
      thompson_sampling_bias_runtime invb [] runtimes user_biases draws =
        none :=
  ⟨rfl, rfl⟩

/-- C7: the bias transform returns the maximal finite score `f64_MAX` when
the runtime estimate is absent, and otherwise exactly
`rawPercentile * (K / runtimeEstimate) * userBias` with the single fixed
positive constant `K = 100`. -/
theorem claim_C7_skew_percentile_formula (p b r : ℚ) :
    skew_percentile p none b = f64_MAX ∧
      skew_percentile p (some r) b = p * (100 / r) * b ∧ (0 : ℚ) < 100 :=
  ⟨rfl, rfl, by norm_num⟩

/-- C8: the quantile / inverse-beta operation rejects malformed arguments at
entry with `InvalidDomain`: for beta parameters `a ≤ 0` or `b ≤ 0` or a
probability outside `[0,1]` the engine returns the error (so no clamped or
out-of-range value is ever produced), and the arm-level quantile query
`dist_area_at_percentile` rejects every probability outside `[0,1]` for
every `ArmStatistics`. -/
theorem claim_C8_invalid_domain_rejected (refine : ℚ → ℚ → ℚ → ℚ)
    (entry : ThompsonInfo) (p a b : ℚ) :
    ((a ≤ 0 ∨ b ≤ 0 ∨ p < 0 ∨ 1 < p) →
        inverseRegularizedIncompleteBeta refine p a b =
          Except.error BetaError.invalidDomain) ∧
      ((p < 0 ∨ 1 < p) →
        dist_area_at_percentile refine entry p =
          Except.error BetaError.invalidDomain) := by
  constructor
  · intro h
    simp only [inverseRegularizedIncompleteBeta]
    rw [if_pos h]
  · intro h
    simp only [dist_area_at_percentile, inverseRegularizedIncompleteBeta]
    rw [if_pos (Or.inr (Or.inr h))]

/-- Closed witness for C8: the engine rejects `p = 2` (with valid
`a = b = 1`) and the arm-level query rejects `p = -1` on the fresh arm. -/
theorem claim_C8_invalid_domain_rejected_witness :
    inverseRegularizedIncompleteBeta (fun p _ _ => p) 2 1 1 =
        Except.error BetaError.invalidDomain ∧
      dist_area_at_percentile (fun p _ _ => p) ⟨0, 0⟩ (-1) =
        Except.error BetaError.invalidDomain :=
  ⟨(claim_C8_invalid_domain_rejected (fun p _ _ => p) ⟨0, 0⟩ 2 1 1).1
      (by norm_num),
    (claim_C8_invalid_domain_rejected (fun p _ _ => p) ⟨0, 0⟩ (-1) 1 1).2
      (by norm_num)⟩

/-- C10: for every config and script name, `reset_state` restricted to that
name panics exactly when some script bears the name (the find-check is
inverted in the source), and when no script bears the name it returns the
config unchanged — so a named reset never resets any script's statistics. -/
theorem claim_C10_named_reset_inverted (cfg : Config) (name : String) :
    ((∃ s ∈ cfg.scripts, s.name = name) →
        reset_state cfg (some name) =
          Except.error
            ("Could not find specified script " ++ name ++ " to reset")) ∧
      ((∀ s ∈ cfg.scripts, s.name ≠ name) →
        reset_state cfg (some name) = Except.ok cfg) := by
  constructor
  · intro h
    simp only [reset_state]
    rw [if_pos]
    simp only [List.any_eq_true, decide_eq_true_eq]
    exact h
  · intro h
    simp only [reset_state]
    rw [if_neg]
    · have hmap :
          (cfg.scripts.map fun script =>
              if script.name = name then resetScript script else script) =
            cfg.scripts := by
        rw [List.map_congr_left fun s hs => if_neg (h s hs), List.map_id']
      rw [hmap]
    · simp only [List.any_eq_true, decide_eq_true_eq, not_exists]
      intro s hs
      exact h s hs.1 hs.2

/-- Closed witness for C10 on a one-script config named "a": resetting "a"
panics although the script exists, and resetting the absent "b" returns the
config unchanged, statistics and all. -/
theorem claim_C10_named_reset_inverted_witness :
    reset_state ⟨[⟨"a", "run-a", ⟨3, 4⟩, 2, some 5, 1, none⟩]⟩ (some "a") =
        Except.error ("Could not find specified script " ++ "a" ++ " to reset") ∧
      reset_state ⟨[⟨"a", "run-a", ⟨3, 4⟩, 2, some 5, 1, none⟩]⟩ (some "b") =
        Except.ok ⟨[⟨"a", "run-a", ⟨3, 4⟩, 2, some 5, 1, none⟩]⟩ :=
  ⟨(claim_C10_named_reset_inverted
        ⟨[⟨"a", "run-a", ⟨3, 4⟩, 2, some 5, 1, none⟩]⟩ "a").1
      ⟨⟨"a", "run-a", ⟨3, 4⟩, 2, some 5, 1, none⟩, by simp, rfl⟩,
    (claim_C10_named_reset_inverted
        ⟨[⟨"a", "run-a", ⟨3, 4⟩, 2, some 5, 1, none⟩]⟩ "b").2
      (by intro s hs; simp only [List.mem_singleton] at hs; subst hs; decide)⟩

lemma rank_shape_perm (entries : List ThompsonInfo) (f : ℕ × ThompsonInfo → ℚ) :
    ((((entries.enum.map fun p => (p.1, f p)).mergeSort
          fun x y => decide (x.2 ≤ y.2)).reverse).map fun p => p.1).Perm
      (List.range entries.length) := by
  have h1 : (((entries.enum.map fun p => (p.1, f p)).mergeSort
        fun x y => decide (x.2 ≤ y.2)).reverse).Perm
      (entries.enum.map fun p => (p.1, f p)) :=
    (List.reverse_perm _).trans (List.mergeSort_perm _ _)
  have h2 := h1.map fun p : ℕ × ℚ => p.1
  have h3 : ((entries.enum.map fun p => (p.1, f p)).map fun p : ℕ × ℚ => p.1) =
      List.range entries.length := by
    rw [List.map_map]
    exact List.enum_map_fst entries
  rwa [h3] at h2

/-- C3: for every number of arms and every sampler, runtime list, bias list
and draw list, both ranking forms return a permutation of `0 .. N-1`: every
index appears exactly once. -/
theorem claim_C3_rank_is_permutation (invb : ℚ → ℚ → ℚ → ℚ)
    (entries : List ThompsonInfo) (runtimes : List (Option ℚ))
    (user_biases : List ℚ) (draws : List ℚ) :
    (thompson_ranking_bias_runtime invb entries runtimes user_biases
        draws).Perm (List.range entries.length) ∧
      (thompson_ranking invb entries draws).Perm
        (List.range entries.length) := by
  constructor
  · simp only [thompson_ranking_bias_runtime]
    exact rank_shape_perm entries _
  · simp only [thompson_ranking]
    exact rank_shape_perm entries _

lemma listGetD_of_lt (l : List α) (d : α) (h : n < l.length) :
    l.getD n d = l[n] := by
  rw [List.getD_eq_getElem?_getD, List.getElem?_eq_getElem h, Option.getD_some]

lemma selLoop_of_all_le :
    ∀ (l : List ℚ) (index : ℕ) (sel : Option ℕ) (best : ℚ),
      (∀ s ∈ l, s ≤ best) → selLoop index sel best l = sel
  | [], _, _, _, _ => rfl
  | s :: rest, index, sel, best, h => by
      have hs : s ≤ best := h s (List.mem_cons_self s rest)
      simp only [selLoop, if_neg (not_lt.mpr hs)]
      exact selLoop_of_all_le rest (index + 1) sel best fun x hx =>
        h x (List.mem_cons_of_mem s hx)

lemma selLoop_first_max :
    ∀ (l : List ℚ) (index : ℕ) (sel : Option ℕ) (best : ℚ),
      best < f64_MAX → f64_MAX ∈ l → (∀ s ∈ l, s ≤ f64_MAX) →
      ∃ k, k < l.length ∧ selLoop index sel best l = some (index + k) ∧
        l.getD k 0 = f64_MAX
  | [], _, _, _, _, hmem, _ => absurd hmem (List.not_mem_nil _)
  | s :: rest, index, sel, best, hbest, hmem, hle => by
      by_cases hsmax : s = f64_MAX
      · refine ⟨0, by simp, ?_, by simp [hsmax]⟩
        simp only [selLoop, if_pos (hsmax ▸ hbest)]
        rw [Nat.add_zero]
        exact selLoop_of_all_le rest (index + 1) (some index) s fun x hx =>
          (hle x (List.mem_cons_of_mem s hx)).trans_eq hsmax.symm
      · have hsrest : f64_MAX ∈ rest := by
          rcases List.mem_cons.mp hmem with h | h
          · exact absurd h.symm hsmax
          · exact h
        have hslt : s < f64_MAX :=
          lt_of_le_of_ne (hle s (List.mem_cons_self s rest)) hsmax
        have hrle : ∀ x ∈ rest, x ≤ f64_MAX := fun x hx =>
          hle x (List.mem_cons_of_mem s hx)
        by_cases hc : best < s
        · obtain ⟨k, hk, heq, hgetD⟩ :=
            selLoop_first_max rest (index + 1) (some index) s hslt hsrest hrle
          refine ⟨k + 1, by simpa using Nat.succ_lt_succ hk, ?_, by
            simpa [List.getD_cons_succ] using hgetD⟩
          simp only [selLoop, if_pos hc]
          rw [heq]
          congr 1
          omega
        · obtain ⟨k, hk, heq, hgetD⟩ :=
            selLoop_first_max rest (index + 1) sel best hbest hsrest hrle
          refine ⟨k + 1, by simpa using Nat.succ_lt_succ hk, ?_, by
            simpa [List.getD_cons_succ] using hgetD⟩
          simp only [selLoop, if_neg hc]
          rw [heq]
          congr 1
          omega

lemma skewed_scores_length (invb : ℚ → ℚ → ℚ → ℚ)
    (entries : List ThompsonInfo) (runtimes : List (Option ℚ))
    (user_biases : List ℚ) (draws : List ℚ) :
    (skewed_scores invb entries runtimes user_biases draws).length =
      entries.length := by
  simp [skewed_scores]

lemma skewed_scores_getD (invb : ℚ → ℚ → ℚ → ℚ)
    (entries : List ThompsonInfo) (runtimes : List (Option ℚ))
    (user_biases : List ℚ) (draws : List ℚ) (i : ℕ)
    (h : i < entries.length) :
    (skewed_scores invb entries runtimes user_biases draws).getD i 0 =
      thompson_step_bias_runtime invb
        (entries.getD i ⟨0, 0⟩).interesting
        (entries.getD i ⟨0, 0⟩).uninteresting
        (runtimes.getD i none) (user_biases.getD i 0) (draws.getD i 0) := by
  have hlen : i < (skewed_scores invb entries runtimes user_biases draws).length := by
    rwa [skewed_scores_length]
  rw [listGetD_of_lt _ _ hlen, listGetD_of_lt _ _ h]
  simp [skewed_scores, List.getElem_enum]

/-- C2 counterexample: with a valid (non-negative, non-NaN) user bias of
`f64_MAX` on an arm with known runtime `1.0`, that arm's skewed score,
`(1/2) * (100/1) * f64_MAX`, exceeds the unknown-runtime sentinel, so the
runtime-aware selection returns index 0 — an arm whose runtime is known —
although arm 1 has `RuntimeEstimate = None`, refuting the claim as stated. -/
theorem claim_C2_counterexample :
    thompson_sampling_bias_runtime (fun u _ _ => u) [⟨0, 0⟩, ⟨0, 0⟩]
        [some 1, none] [f64_MAX, 1] [1 / 2, 1 / 2] = some 0 ∧
      [some (1 : ℚ), none].getD 0 none ≠ none := by
  constructor
  · simp only [thompson_sampling_bias_runtime, tsbrLoop,
      thompson_step_bias_runtime, skew_percentile, List.getD_cons_zero,
      List.getD_cons_succ]
    rw [if_pos (by rw [f64_MAX]; norm_num), if_neg (by rw [f64_MAX]; norm_num)]
  · simp

/-- C2 (amended): if some arm has an unknown runtime and every arm with a
known runtime has skewed score strictly below the sentinel `f64_MAX` (as is
the case whenever biases and reciprocal runtimes are of reasonable
magnitude), then for every sampler and draw list the runtime-aware
selection returns an arm whose runtime is unknown — deterministically. -/
theorem claim_C2_unknown_runtime_selected (invb : ℚ → ℚ → ℚ → ℚ)
    (entries : List ThompsonInfo) (runtimes : List (Option ℚ))
    (user_biases : List ℚ) (draws : List ℚ)
    (hnone : ∃ i, i < entries.length ∧ runtimes.getD i none = none)
    (hbound : ∀ i, i < entries.length → runtimes.getD i none ≠ none →
      thompson_step_bias_runtime invb
        (entries.getD i ⟨0, 0⟩).interesting
        (entries.getD i ⟨0, 0⟩).uninteresting
        (runtimes.getD i none) (user_biases.getD i 0) (draws.getD i 0) <
        f64_MAX) :
    ∃ j, j < entries.length ∧
      thompson_sampling_bias_runtime invb entries runtimes user_biases
        draws = some j ∧
      runtimes.getD j none = none := by
  rw [thompson_sampling_bias_runtime_eq]
  obtain ⟨i, hi, hri⟩ := hnone
  have hilen : i < (skewed_scores invb entries runtimes user_biases draws).length := by
    rwa [skewed_scores_length]
  have hiMAX : (skewed_scores invb entries runtimes user_biases draws).getD i 0 =
      f64_MAX := by
    rw [skewed_scores_getD invb entries runtimes user_biases draws i hi, hri]
    rfl
  have hmem : f64_MAX ∈ skewed_scores invb entries runtimes user_biases draws := by
    rw [← hiMAX, listGetD_of_lt _ _ hilen]
    exact List.getElem_mem hilen
  have hall : ∀ s ∈ skewed_scores invb entries runtimes user_biases draws,
      s ≤ f64_MAX := by
    intro s hs
    obtain ⟨j, hj, rfl⟩ := List.mem_iff_getElem.mp hs
    have hjlen : j < entries.length := by rwa [skewed_scores_length] at hj
    rw [← listGetD_of_lt _ 0 hj,
      skewed_scores_getD invb entries runtimes user_biases draws j hjlen]
    rcases hr : runtimes.getD j none with _ | r
    · exact le_of_eq rfl
    · exact le_of_lt (by
        have := hbound j hjlen (by rw [hr]; simp)
        rwa [hr] at this)
  have hstart : (-1 : ℚ) < f64_MAX := by rw [f64_MAX]; norm_num
  obtain ⟨k, hk, heq, hgetD⟩ :=
    selLoop_first_max (skewed_scores invb entries runtimes user_biases draws)
      0 none (-1) hstart hmem hall
  have hklen : k < entries.length := by rwa [skewed_scores_length] at hk
  refine ⟨k, hklen, by simpa [select_by_score] using heq, ?_⟩
  rcases hr : runtimes.getD k none with _ | r
  · rfl
  · exfalso
    have hlt := hbound k hklen (by rw [hr]; simp)
    rw [skewed_scores_getD invb entries runtimes user_biases draws k hklen]
      at hgetD
    rw [hgetD] at hlt
    exact absurd hlt (lt_irrefl _)

/-- Closed witness for the amended C2: arm 0 has runtime `1.0` and skewed
score 50, arm 1 has no runtime estimate; the selection picks arm 1. -/
theorem claim_C2_unknown_runtime_selected_witness :
    ∃ j, j < 2 ∧
      thompson_sampling_bias_runtime (fun u _ _ => u) [⟨100, 0⟩, ⟨0, 0⟩]
        [some 1, none] [1, 1] [1 / 2, 1 / 2] = some j ∧
      [some (1 : ℚ), none].getD j none = none := by
  have h := claim_C2_unknown_runtime_selected (fun u _ _ => u)
    [⟨100, 0⟩, ⟨0, 0⟩] [some 1, none] [1, 1] [1 / 2, 1 / 2]
    ⟨1, by norm_num, rfl⟩
    (by
      intro i hi hr
      have hcase : i = 0 ∨ i = 1 := by
        simp only [List.length_cons, List.length_nil] at hi
        omega
      rcases hcase with rfl | rfl
      · simp only [thompson_step_bias_runtime, skew_percentile,
          List.getD_cons_zero]
        rw [f64_MAX]
        norm_num
      · exact absurd rfl hr)
  simpa using h


lemma nodup_no_dup_pair {a : α} {l : List α} (hnd : l.Nodup)
    (hsub : List.Sublist [a, a] l) : False := by
  induction l with
  | nil => cases hsub
  | cons h t ih =>
      rw [List.nodup_cons] at hnd
      cases hsub with
      | cons _ h1 => exact ih hnd.2 h1
      | cons₂ _ h1 => exact hnd.1 (h1.subset (by simp))

lemma pair_sublist_antisymm {u v : α} {l : List α} (hnd : l.Nodup)
    (h1 : List.Sublist [u, v] l) (h2 : List.Sublist [v, u] l) : u = v := by
  induction l with
  | nil => cases h1
  | cons h t ih =>
      rw [List.nodup_cons] at hnd
      cases h1 with
      | cons _ h1t =>
          cases h2 with
          | cons _ h2t => exact ih hnd.2 h1t h2t
          | cons₂ _ h2t => exact absurd (h1t.subset (by simp)) hnd.1
      | cons₂ _ h1t =>
          cases h2 with
          | cons _ h2t => exact absurd (h2t.subset (by simp)) hnd.1
          | cons₂ _ h2t => rfl

lemma pair_sublist_total {u v : α} {l : List α} (hu : u ∈ l) (hv : v ∈ l) :
    u = v ∨ List.Sublist [u, v] l ∨ List.Sublist [v, u] l := by
  induction l with
  | nil => cases hu
  | cons hd t ih =>
      rcases List.mem_cons.mp hu with rfl | hut
      · rcases List.mem_cons.mp hv with rfl | hvt
        · exact Or.inl rfl
        · exact Or.inr (Or.inl
            (List.Sublist.cons₂ u (List.singleton_sublist.mpr hvt)))
      · rcases List.mem_cons.mp hv with rfl | hvt
        · exact Or.inr (Or.inr
            (List.Sublist.cons₂ v (List.singleton_sublist.mpr hut)))
        · rcases ih hut hvt with heq | hs | hs
          · exact Or.inl heq
          · exact Or.inr (Or.inl (List.Sublist.cons hd hs))
          · exact Or.inr (Or.inr (List.Sublist.cons hd hs))

lemma mergeSort_key_lex {l : List (ℕ × ℚ)}
    (hinc : l.Pairwise fun a b => a.1 < b.1) :
    (l.mergeSort fun x y => decide (x.2 ≤ y.2)).Pairwise
      fun x y => x.2 < y.2 ∨ (x.2 = y.2 ∧ x.1 < y.1) := by
  have htrans : ∀ a b c : ℕ × ℚ,
      (fun x y : ℕ × ℚ => decide (x.2 ≤ y.2)) a b →
      (fun x y : ℕ × ℚ => decide (x.2 ≤ y.2)) b c →
      (fun x y : ℕ × ℚ => decide (x.2 ≤ y.2)) a c := by
    intro a b c hab hbc
    simp only [decide_eq_true_eq] at hab hbc ⊢
    exact le_trans hab hbc
  have htotal : ∀ a b : ℕ × ℚ,
      ((fun x y : ℕ × ℚ => decide (x.2 ≤ y.2)) a b ||
        (fun x y : ℕ × ℚ => decide (x.2 ≤ y.2)) b a) := by
    intro a b
    simp only [Bool.or_eq_true, decide_eq_true_eq]
    exact le_total _ _
  have hsorted := List.sorted_mergeSort htrans htotal l
  have hndl : l.Nodup :=
    hinc.imp fun h heq => absurd (heq ▸ h) (lt_irrefl _)
  have hnd : (l.mergeSort fun x y => decide (x.2 ≤ y.2)).Nodup :=
    (List.mergeSort_perm l _).symm.nodup hndl
  rw [List.pairwise_iff_forall_sublist]
  intro a b hsub
  have hmemA : a ∈ l := List.mem_mergeSort.mp (hsub.subset (by simp))
  have hmemB : b ∈ l := List.mem_mergeSort.mp (hsub.subset (by simp))
  have hab : a.2 ≤ b.2 := by
    have := List.pairwise_iff_forall_sublist.mp hsorted hsub
    simpa using this
  rcases lt_or_eq_of_le hab with hlt | heq2
  · exact Or.inl hlt
  · refine Or.inr ⟨heq2, ?_⟩
    have hne : a ≠ b := by
      intro h
      subst h
      exact nodup_no_dup_pair hnd hsub
    rcases pair_sublist_total hmemA hmemB with h | h | h
    · exact absurd h hne
    · exact List.pairwise_iff_forall_sublist.mp hinc h
    · exfalso
      have hle_ba : (fun x y : ℕ × ℚ => decide (x.2 ≤ y.2)) b a := by
        simp [heq2]
      have hout := List.pair_sublist_mergeSort htrans htotal hle_ba h
      exact hne (pair_sublist_antisymm hnd hsub hout)

lemma enumFrom_pairwise_fst_lt (l : List α) :
    ∀ n : ℕ, (l.enumFrom n).Pairwise fun a b => a.1 < b.1 := by
  induction l with
  | nil => intro n; simp
  | cons a t ih =>
      intro n
      rw [List.enumFrom_cons]
      refine List.Pairwise.cons ?_ (ih (n + 1))
      intro p hp
      obtain ⟨i, x⟩ := p
      have hle := List.le_fst_of_mem_enumFrom hp
      show n < i
      omega

lemma getD_eq_of_mem_enum {scores : List ℚ} {p : ℕ × ℚ}
    (h : p ∈ scores.enum) : scores.getD p.1 0 = p.2 := by
  obtain ⟨i, x⟩ := p
  simp only [List.enum] at h
  obtain ⟨h0, hlt, hx⟩ := List.mem_enumFrom h
  rw [listGetD_of_lt scores 0 (by simpa using hlt)]
  simp only [Nat.sub_zero] at hx
  exact hx.symm

lemma rank_by_score_pairwise (scores : List ℚ) :
    (rank_by_score scores).Pairwise fun i j =>
      scores.getD j 0 < scores.getD i 0 ∨
        (scores.getD i 0 = scores.getD j 0 ∧ j < i) := by
  have hinc : scores.enum.Pairwise fun a b => a.1 < b.1 := by
    simpa [List.enum] using enumFrom_pairwise_fst_lt scores 0
  have hlex := mergeSort_key_lex hinc
  have hrev :
      ((scores.enum.mergeSort fun x y => decide (x.2 ≤ y.2)).reverse).Pairwise
        fun x y : ℕ × ℚ => y.2 < x.2 ∨ (y.2 = x.2 ∧ y.1 < x.1) :=
    List.pairwise_reverse.mpr hlex
  rw [rank_by_score, List.pairwise_map]
  refine hrev.imp_of_mem ?_
  intro a b ha hb hR
  have hmemA : a ∈ scores.enum := List.mem_mergeSort.mp (List.mem_reverse.mp ha)
  have hmemB : b ∈ scores.enum := List.mem_mergeSort.mp (List.mem_reverse.mp hb)
  rw [getD_eq_of_mem_enum hmemA, getD_eq_of_mem_enum hmemB]
  rcases hR with h | ⟨h1, h2⟩
  · exact Or.inl h
  · exact Or.inr ⟨h1.symm, h2⟩

/-- C4 counterexample: two arms with identical statistics and the identical
draw receive the identical raw score `1/2`, yet the ranking is `[1, 0]` —
equal-score arms appear in REVERSE index order, not the claimed original
index order, because the source reverses an ascending stable sort. -/
theorem claim_C4_counterexample :
    thompson_ranking (fun u _ _ => u) [⟨0, 0⟩, ⟨0, 0⟩] [1 / 2, 1 / 2] =
        [1, 0] ∧
      raw_scores (fun u _ _ => u) [⟨0, 0⟩, ⟨0, 0⟩] [1 / 2, 1 / 2] =
        [1 / 2, 1 / 2] := by
  constructor
  · have hms : ([((0 : ℕ), (1 : ℚ) / 2), (1, 1 / 2)].mergeSort
        fun x y => decide (x.2 ≤ y.2)) = [(0, 1 / 2), (1, 1 / 2)] :=
      List.mergeSort_of_sorted (by norm_num [List.pairwise_cons])
    simp only [thompson_ranking, thompson_step, List.enum, List.enumFrom_cons,
      List.enumFrom_nil, List.map_cons, List.map_nil, List.getD_cons_zero,
      List.getD_cons_succ]
    rw [hms]
    rfl
  · rfl

/-- C4 (amended): both ranking forms list the arms in weakly descending
order of their per-call scores, and arms whose scores are equal appear in
REVERSE original index order (the source performs an ascending stable sort
and then reverses it, which reverses the relative order of ties): whenever
arm `i` precedes arm `j` in the returned ranking, either `i`'s score is
strictly greater than `j`'s, or the two scores are equal and `i > j`. -/
theorem claim_C4_rank_descending_reverse_ties (invb : ℚ → ℚ → ℚ → ℚ)
    (entries : List ThompsonInfo) (runtimes : List (Option ℚ))
    (user_biases : List ℚ) (draws : List ℚ) :
    (thompson_ranking_bias_runtime invb entries runtimes user_biases
        draws).Pairwise
      (fun i j =>
        (skewed_scores invb entries runtimes user_biases draws).getD j 0 <
            (skewed_scores invb entries runtimes user_biases draws).getD i 0 ∨
          ((skewed_scores invb entries runtimes user_biases draws).getD i 0 =
              (skewed_scores invb entries runtimes user_biases draws).getD j
                0 ∧
            j < i)) ∧
      (thompson_ranking invb entries draws).Pairwise
        (fun i j =>
          (raw_scores invb entries draws).getD j 0 <
              (raw_scores invb entries draws).getD i 0 ∨
            ((raw_scores invb entries draws).getD i 0 =
                (raw_scores invb entries draws).getD j 0 ∧
              j < i)) := by
  constructor
  · rw [thompson_ranking_bias_runtime_eq]
    exact rank_by_score_pairwise _
  · rw [thompson_ranking_eq]
    exact rank_by_score_pairwise _

lemma mergeSort_two {α : Type} (le : α → α → Bool) (a b : α) :
    [a, b].mergeSort le = if le a b then [a, b] else [b, a] := by
  rw [List.mergeSort]
  simp only [List.splitInTwo_fst, List.splitInTwo_snd]
  norm_num [List.mergeSort_singleton, List.cons_merge_cons]

/-- Written from the spec's words, for comparison with the source: the
runtime-ignorant rank as the claim states it, scoring every arm
`plainScore = rawPercentile * userBias`. -/
def rank_plain_score_spec (invb : ℚ → ℚ → ℚ → ℚ)
    (entries : List ThompsonInfo) (user_biases : List ℚ) (draws : List ℚ) :
    List ℕ :=
  rank_by_score (plain_scores invb entries user_biases draws)

/-- C5 counterexample: the source's runtime-ignorant `thompson_ranking`
takes no user biases at all.  With raw samples `1/4, 1/2` and biases
`10, 1`, the spec's plain-score rank puts arm 0 first (`5/2 > 1/2`), but
the source ranking orders by the raw samples alone and puts arm 1 first —
so the runtime-ignorant rank does not score arms by
`rawPercentile * userBias`, refuting the claim as stated. -/
theorem claim_C5_counterexample :
    thompson_ranking (fun u _ _ => u) [⟨0, 0⟩, ⟨0, 0⟩] [1 / 4, 1 / 2] =
        [1, 0] ∧
      rank_plain_score_spec (fun u _ _ => u) [⟨0, 0⟩, ⟨0, 0⟩] [10, 1]
        [1 / 4, 1 / 2] = [0, 1] := by
  constructor
  · simp only [thompson_ranking, thompson_step, List.enum,
      List.enumFrom_cons, List.enumFrom_nil, List.map_cons, List.map_nil,
      List.getD_cons_zero, List.getD_cons_succ]
    rw [mergeSort_two]
    rw [if_pos (by rw [decide_eq_true_eq]; norm_num)]
    rfl
  · simp only [rank_plain_score_spec, rank_by_score, plain_scores,
      thompson_step, List.enum, List.enumFrom_cons, List.enumFrom_nil,
      List.map_cons, List.map_nil, List.getD_cons_zero, List.getD_cons_succ]
    rw [mergeSort_two]
    rw [if_neg (by rw [decide_eq_true_eq]; norm_num)]
    rfl

/-- C5 (amended): each selection and ranking form is the generic
maximum-selection (resp. sort-descending) over a per-arm score list, and
the forms differ only in that score list: the runtime-ignorant `selectBest`
uses `plainScore = rawPercentile * userBias`, both runtime-aware forms use
the skewed score, and the runtime-ignorant `rank` uses the raw percentile
alone — it applies no user bias. -/
theorem claim_C5_forms_differ_only_in_scores (invb : ℚ → ℚ → ℚ → ℚ)
    (entries : List ThompsonInfo) (runtimes : List (Option ℚ))
    (user_biases : List ℚ) (draws : List ℚ) :
    thompson_sampling invb entries user_biases draws =
        select_by_score (plain_scores invb entries user_biases draws) ∧
      thompson_sampling_bias_runtime invb entries runtimes user_biases
          draws =
        select_by_score
          (skewed_scores invb entries runtimes user_biases draws) ∧
      thompson_ranking invb entries draws =
        rank_by_score (raw_scores invb entries draws) ∧
      thompson_ranking_bias_runtime invb entries runtimes user_biases
          draws =
        rank_by_score
          (skewed_scores invb entries runtimes user_biases draws) :=
  ⟨thompson_sampling_eq invb entries user_biases draws,
    thompson_sampling_bias_runtime_eq invb entries runtimes user_biases
      draws,
    thompson_ranking_eq invb entries draws,
    thompson_ranking_bias_runtime_eq invb entries runtimes user_biases
      draws⟩

/-- Written from the claim's words, for comparison: `choose_script` with the
bias list filtered by the same limit filter as the statistics and runtimes,
so each retained arm is scored with its own bias. -/
def choose_script_own_bias (invb : ℚ → ℚ → ℚ → ℚ) (config : Config)
    (ignore_runtime : Bool) (draws : List ℚ) : Option ℕ :=
  let kept := config.scripts.filter keepScript
  let entries := kept.map Script.results
  let runtimes := kept.map Script.avgruntime_ms
  let user_biases := kept.map Script.bias
  if ignore_runtime then
    thompson_sampling invb entries user_biases draws
  else
    thompson_sampling_bias_runtime invb entries runtimes user_biases draws

/-- C9: in `choose_script` the bias list is built from all scripts with no
limit filter, so the j-th retained arm is scored with the bias of the j-th
script of the FULL list (first conjunct: the selection equals the generic
selector over scores that pair the filtered statistics and runtimes with
the unfiltered bias list).  Consequently (second conjunct) on a config
whose first script is excluded by its limit, the retained arms are scored
with the wrong biases and the selection differs from the own-bias variant:
the code picks retained arm 0 (bias 7 borrowed from the excluded script)
while scoring each retained arm with its own bias picks arm 1. -/
theorem claim_C9_bias_list_unfiltered :
    (∀ (invb : ℚ → ℚ → ℚ → ℚ) (config : Config) (ignore_runtime : Bool)
        (draws : List ℚ),
      choose_script invb config ignore_runtime draws =
        if ignore_runtime then
          select_by_score (plain_scores invb
            ((config.scripts.filter keepScript).map Script.results)
            (config.scripts.map Script.bias) draws)
        else
          select_by_score (skewed_scores invb
            ((config.scripts.filter keepScript).map Script.results)
            ((config.scripts.filter keepScript).map Script.avgruntime_ms)
            (config.scripts.map Script.bias) draws)) ∧
      choose_script (fun u _ _ => u)
          ⟨[⟨"s0", "c0", ⟨0, 0⟩, 0, none, 7, some 5⟩,
            ⟨"s1", "c1", ⟨0, 0⟩, 0, none, 2, none⟩,
            ⟨"s2", "c2", ⟨0, 0⟩, 0, none, 3, none⟩]⟩ true [1 / 2, 1 / 2] =
        some 0 ∧
      choose_script_own_bias (fun u _ _ => u)
          ⟨[⟨"s0", "c0", ⟨0, 0⟩, 0, none, 7, some 5⟩,
            ⟨"s1", "c1", ⟨0, 0⟩, 0, none, 2, none⟩,
            ⟨"s2", "c2", ⟨0, 0⟩, 0, none, 3, none⟩]⟩ true [1 / 2, 1 / 2] =
        some 1 := by
  refine ⟨?_, ?_, ?_⟩
  · intro invb config ignore_runtime draws
    simp only [choose_script]
    by_cases h : ignore_runtime = true
    · rw [if_pos h, if_pos h]
      exact thompson_sampling_eq invb _ _ draws
    · rw [if_neg h, if_neg h]
      exact thompson_sampling_bias_runtime_eq invb _ _ _ draws
  · have hstep : choose_script (fun u _ _ => u)
        ⟨[⟨"s0", "c0", ⟨0, 0⟩, 0, none, 7, some 5⟩,
          ⟨"s1", "c1", ⟨0, 0⟩, 0, none, 2, none⟩,
          ⟨"s2", "c2", ⟨0, 0⟩, 0, none, 3, none⟩]⟩ true [1 / 2, 1 / 2] =
        thompson_sampling (fun u _ _ => u) [⟨0, 0⟩, ⟨0, 0⟩] [7, 2, 3]
          [1 / 2, 1 / 2] := rfl
    rw [hstep]
    simp only [thompson_sampling, tsLoop, thompson_step,
      List.getD_cons_zero, List.getD_cons_succ]
    rw [if_pos (by norm_num : (-1 : ℚ) < 1 / 2 * 7),
      if_neg (by norm_num : ¬ ((1 : ℚ) / 2 * 7 < 1 / 2 * 2))]
  · have hstep : choose_script_own_bias (fun u _ _ => u)
        ⟨[⟨"s0", "c0", ⟨0, 0⟩, 0, none, 7, some 5⟩,
          ⟨"s1", "c1", ⟨0, 0⟩, 0, none, 2, none⟩,
          ⟨"s2", "c2", ⟨0, 0⟩, 0, none, 3, none⟩]⟩ true [1 / 2, 1 / 2] =
        thompson_sampling (fun u _ _ => u) [⟨0, 0⟩, ⟨0, 0⟩] [2, 3]
          [1 / 2, 1 / 2] := rfl
    rw [hstep]
    simp only [thompson_sampling, tsLoop, thompson_step,
      List.getD_cons_zero, List.getD_cons_succ]
    rw [if_pos (by norm_num : (-1 : ℚ) < 1 / 2 * 2),
      if_pos (by norm_num : (1 : ℚ) / 2 * 2 < 1 / 2 * 3)]
